import Mathlib

/-!
Verification of the review-flattening pipelines in
`get_review_data/get_apple_app_store_reviews.py` and
`get_review_data/get_google_play_app_reviews.py`.

JSON values (the parsed API payloads) are shallowly embedded as the nested
inductive `JValue`; Python dicts are association lists in insertion order
(keys unique by construction in Python), Python `None` is `JValue.null`.
Fallible Python code (KeyError, TypeError, UnboundLocalError) is embedded
with `Except Unit`.  Side effects (printing, file writes) are dropped; the
HTTP fetcher is a parameter `Nat → Option JValue` (page number to parsed
response, `none` when `get_reviews` returns `None`).
-/

inductive JValue where
  | null : JValue
  | atom : String → JValue
  | num : Int → JValue
  | dict : List (String × JValue) → JValue
  | arr : List JValue → JValue
  deriving Repr

/-- A flattened review record: a Python dict from field name to value,
in insertion order. -/
abbrev Record := List (String × JValue)

/-- The keys of a record, in order. -/
def keysOf (r : Record) : List String := r.map Prod.fst

/-- `isinstance(v, (dict, list))`. -/
def JValue.isComposite : JValue → Bool
  | .dict _ => true
  | .arr _ => true
  | _ => false

/-- Python dict lookup `d[k]` on an association list (first binding wins;
real Python dicts never carry a duplicate key). -/
def lookupStr (d : List (String × JValue)) (k : String) : Option JValue :=
  match d with
  | [] => none
  | (k', v) :: rest => if k' = k then some v else lookupStr rest k

/-- Python dict assignment `r[k] = v`: overwrite in place if the key is
present (keeping its position), otherwise append the new binding. -/
def setKey (r : Record) (k : String) (v : JValue) : Record :=
  match r with
  | [] => [(k, v)]
  | (k', w) :: rest => if k' = k then (k, v) :: rest else (k', w) :: setKey rest k v

/-- Python `d.update(new)`: set every binding of `new` into `r`, in order. -/
def dictUpdate (r addend : Record) : Record :=
  addend.foldl (fun a p => setKey a p.1 p.2) r

/-- Python subscription `v[k]` with a string key: succeeds only on a dict
that holds the key (otherwise `KeyError` / `TypeError`). -/
def nestedIndex (v : JValue) (k : String) : Except Unit JValue :=
  match v with
  | .dict d =>
    match lookupStr d k with
    | some w => Except.ok w
    | none => Except.error ()
  | _ => Except.error ()

/-- Python iteration `for x in v`: a list yields its items, a dict yields
its keys (as strings), a string yields its one-character substrings;
`None` and numbers are not iterable (`TypeError`). -/
def pyIter (v : JValue) : Except Unit (List JValue) :=
  match v with
  | .arr items => Except.ok items
  | .dict d => Except.ok (d.map (fun p => JValue.atom p.1))
  | .atom s => Except.ok (s.data.map (fun c => JValue.atom (String.singleton c)))
  | _ => Except.error ()

/-! ## App Store pipeline (`get_apple_app_store_reviews.py`) -/

/-- One extraction rule `(JSON key, JSON nested key, name of extracted data)`. -/
structure KeyRule where
  src : String
  nested : String
  dest : String
  deriving DecidableEq

def author_keys : List KeyRule :=
  [⟨"uri", "label", "author_uri"⟩,
   ⟨"name", "label", "author_name"⟩]

def other_keys : List KeyRule :=
  [⟨"im:version", "label", "im_version"⟩,
   ⟨"im:rating", "label", "im_rating"⟩,
   ⟨"id", "label", "id"⟩,
   ⟨"title", "label", "title"⟩,
   ⟨"content", "label", "content"⟩,
   ⟨"im:voteSum", "label", "im_votesum"⟩,
   ⟨"im:voteCount", "label", "im_votecount"⟩]

def link_keys : List KeyRule :=
  [⟨"attributes", "rel", "link_attributes_related"⟩,
   ⟨"attributes", "href", "link_attributes_href"⟩]

def content_keys : List KeyRule :=
  [⟨"attributes", "term", "content_attributes_term"⟩,
   ⟨"attributes", "label", "content_attributes_label"⟩]

def review_sections : List (String × List KeyRule) :=
  [("author", author_keys),
   ("link", link_keys),
   ("im:contentType", content_keys)]

/-- Inner loop of `extract_matches`: `for key in keys: if entry == key[0]: ...`.
An empty nested key stores the value verbatim; otherwise the nested
subscription `review_section[entry][key[1]]` may raise. -/
def ematchRules (rules : List KeyRule) (entry : String) (v : JValue) (acc : Record) :
    Except Unit Record :=
  match rules with
  | [] => Except.ok acc
  | r :: rest =>
    if entry = r.src then
      if r.nested = "" then ematchRules rest entry v (setKey acc r.dest v)
      else
        match nestedIndex v r.nested with
        | Except.ok w => ematchRules rest entry v (setKey acc r.dest w)
        | Except.error e => Except.error e
    else ematchRules rest entry v acc

/-- Outer loop of `extract_matches` over the entries of a dict section. -/
def ematchDict (rules : List KeyRule) (entries : List (String × JValue)) (acc : Record) :
    Except Unit Record :=
  match entries with
  | [] => Except.ok acc
  | (k, v) :: rest =>
    match ematchRules rules k v acc with
    | Except.ok acc2 => ematchDict rules rest acc2
    | Except.error e => Except.error e

/-- `extract_matches(keys, review_section)`.  Iterating a non-dict follows
Python: a list item or a one-character substring equal to some rule's
source key would be subscripted with a string (`TypeError`); otherwise the
loop matches nothing and the empty record is returned; `None` and numbers
are not iterable. -/
def extract_matches (keys : List KeyRule) (review_section : JValue) : Except Unit Record :=
  match review_section with
  | .dict d => ematchDict keys d []
  | .arr items =>
    if items.any (fun it =>
        match it with
        | .atom s => keys.any (fun r => r.src = s)
        | _ => false) then
      Except.error ()
    else Except.ok []
  | .atom s =>
    if s.data.any (fun c => keys.any (fun r => r.src = String.singleton c)) then
      Except.error ()
    else Except.ok []
  | _ => Except.error ()

/-- The per-section loop in `process_reviews`:
`review_flat.update(extract_matches(section[1], review[section[0]]))`. -/
def flattenSections (sections : List (String × List KeyRule)) (review : JValue)
    (acc : Record) : Except Unit Record :=
  match sections with
  | [] => Except.ok acc
  | (name, rules) :: rest =>
    match nestedIndex review name with
    | Except.error e => Except.error e
    | Except.ok sect =>
      match extract_matches rules sect with
      | Except.error e => Except.error e
      | Except.ok ext => flattenSections rest review (dictUpdate acc ext)

/-- Flattening of one review inside `process_reviews`: the top-level
extraction with `other_keys`, then each named nested section merged in. -/
def flatten_review (review : JValue) : Except Unit Record :=
  match extract_matches other_keys review with
  | Except.error e => Except.error e
  | Except.ok base => flattenSections review_sections review base

/-- The review loop of `process_reviews`.  On an exception the reviews of
this page appended so far are kept in `all_reviews` (the Python list is
mutated in place), carried in the error value. -/
def processItems (all_reviews : List Record) (items : List JValue) :
    Except (List Record) (List Record) :=
  match items with
  | [] => Except.ok all_reviews
  | rv :: rest =>
    match flatten_review rv with
    | Except.ok r => processItems (all_reviews ++ [r]) rest
    | Except.error _ => Except.error all_reviews

/-- `process_reviews(all_reviews, review_list)`; the error value carries the
records already appended when an exception escapes. -/
def process_reviews (all_reviews : List Record) (review_list : JValue) :
    Except (List Record) (List Record) :=
  match pyIter review_list with
  | Except.error _ => Except.error all_reviews
  | Except.ok items => processItems all_reviews items

/-- The page loop of `get_and_collect_reviews`; `fuel` is the number of
loop iterations left, `page` the 0-based index of the next page.  A fetch
returning `None` hits the bare `return` (the whole call yields `None`);
a page whose `feed`/`entry` chain or processing raises is caught by the
`try`/`except` and breaks the loop, returning what has been collected. -/
def collect_loop (fetch : Nat → Option JValue) :
    Nat → Nat → List Record → Option (List Record)
  | 0, _, all_reviews => some all_reviews
  | fuel + 1, page, all_reviews =>
    match fetch (page + 1) with
    | none => none
    | some reviews =>
      match (nestedIndex reviews "feed").bind (fun f => nestedIndex f "entry") with
      | Except.error _ => some all_reviews
      | Except.ok review_list =>
        match process_reviews all_reviews review_list with
        | Except.error kept => some kept
        | Except.ok all2 => collect_loop fetch fuel (page + 1) all2

/-- `get_and_collect_reviews(review_id, no_of_pages)` with the fetcher
abstracted: `fetch p` is the parsed JSON of `get_reviews(review_id, p)`,
or `none` when that call returns `None`. -/
def get_and_collect_reviews (fetch : Nat → Option JValue) (no_of_pages : Nat) :
    Option (List Record) :=
  collect_loop fetch no_of_pages 0 []

/-- The review list a fetched page yields: `reviews['feed']['entry']`,
then the iteration performed on it by `process_reviews`. -/
def reviewListOf (p : JValue) : Except Unit (List JValue) :=
  match (nestedIndex p "feed").bind (fun f => nestedIndex f "entry") with
  | Except.error e => Except.error e
  | Except.ok entry => pyIter entry

/-- The records a page's review list contributes when flattening succeeds. -/
def flattenOk (items : List JValue) : List Record :=
  items.filterMap (fun rv => (flatten_review rv).toOption)

/-! ## Play Store pipeline (`get_google_play_app_reviews.py`) -/

def comments_keys : List (String × String) :=
  [("starRating", "star_rating"),
   ("reviewerLanguage", "reviewer_language"),
   ("device", "device"),
   ("androidOsVersion", "android_os_version"),
   ("appVersionCode", "app_version_code"),
   ("appVersionName", "app_version_name"),
   ("thumbsUpCount", "thumbs_up_count"),
   ("thumbsDownCount", "thumbs_down_count"),
   ("originalText", "original_text")]

def metadata_keys : List (String × String) :=
  [("productName", "device_product_name"),
   ("manufacturer", "device_manufacturer"),
   ("screenHeightPx", "device_screen_height_px"),
   ("screenWidthPx", "device_screen_width_px"),
   ("screenHeightPx", "device_screen_height_px"),
   ("nativePlatform", "device_native_platform"),
   ("screenDensityDpi", "device_screen_density_dpi"),
   ("glEsVersion", "device_gles_version"),
   ("cpuModel", "device_cpu_model"),
   ("cpuMake", "device_cpu_make"),
   ("ramMb", "device_ram_mb")]

mutual

/-- The inner closure `extract(obj, arr, key)` of `extract_values`:
appends to `arr` the values found, descending into composite values and
stopping the scan of a dict once a scalar match in it is appended. -/
def extract (key : String) : JValue → List JValue → List JValue
  | .dict entries, a => extractEntries key entries a
  | .arr items, a => extractItems key items a
  | _, a => a

/-- The `for k, v in obj.items()` loop of `extract`. -/
def extractEntries (key : String) : List (String × JValue) → List JValue → List JValue
  | [], a => a
  | (k, v) :: rest, a =>
    if v.isComposite then extractEntries key rest (extract key v a)
    else if k = key then a ++ [v]
    else extractEntries key rest a

/-- The `for item in obj` loop of `extract`. -/
def extractItems (key : String) : List JValue → List JValue → List JValue
  | [], a => a
  | item :: rest, a => extractItems key rest (extract key item a)

end

/-- `extract_values(obj, key)`: the first collected value, or `None`. -/
def extract_values (obj : JValue) (key : String) : JValue :=
  match extract key obj [] with
  | [] => JValue.null
  | v :: _ => v

/-- The `for t in last_modified` loop of `extract_timestamp` over dict
entries, threading the `(seconds, nanos)` pair. -/
def tsEntries : List (String × JValue) → JValue × JValue → JValue × JValue
  | [], p => p
  | (t, w) :: rest, (s, n) =>
    tsEntries rest (if t = "seconds" then w else s, if t = "nanos" then w else n)

/-- `extract_timestamp(last_modified)`.  Iterating a non-dict follows
Python: string characters match neither key, a list item equal to
`"seconds"` or `"nanos"` would be subscripted with a string
(`TypeError`), `None` and numbers are not iterable. -/
def extract_timestamp (last_modified : JValue) : Except Unit (JValue × JValue) :=
  match last_modified with
  | .dict d => Except.ok (tsEntries d (JValue.null, JValue.null))
  | .atom _ => Except.ok (JValue.null, JValue.null)
  | .arr items =>
    if items.any (fun it =>
        match it with
        | .atom s => (s == "seconds") || (s == "nanos")
        | _ => false) then
      Except.error ()
    else Except.ok (JValue.null, JValue.null)
  | _ => Except.error ()

/-- `for n in pairs: review_data[n[1]] = extract_values(src, n[0])`. -/
def setFields (r : Record) (pairs : List (String × String)) (src : JValue) : Record :=
  match pairs with
  | [] => r
  | p :: rest => setFields (setKey r p.2 (extract_values src p.1)) rest src

/-- One iteration of the `for val in user_comment` loop (dict case). -/
def processUserVal (user_comment : JValue) (r : Record) (val : String) (w : JValue) :
    Except Unit Record :=
  if val = "text" then Except.ok (setKey r "user_comment" w)
  else if val = "lastModified" then
    match extract_timestamp w with
    | Except.error e => Except.error e
    | Except.ok (s, n) =>
      Except.ok (setKey (setKey r "user_comment_last_modified_seconds" s)
        "user_comment_last_modified_nanos" n)
  else if val = "deviceMetadata" then Except.ok (setFields r metadata_keys user_comment)
  else Except.ok (setFields r comments_keys user_comment)

def processUserEntries (user_comment : JValue) :
    List (String × JValue) → Record → Except Unit Record
  | [], r => Except.ok r
  | (val, w) :: rest, r =>
    match processUserVal user_comment r val w with
    | Except.ok r2 => processUserEntries user_comment rest r2
    | Except.error e => Except.error e

/-- One iteration of the `for val in user_comment` loop when
`user_comment` is a list: a `"text"` or `"lastModified"` item leads to a
string subscription of the list (`TypeError`). -/
def userItemStep (user_comment : JValue) (r : Record) (val : JValue) : Except Unit Record :=
  match val with
  | .atom s =>
    if s = "text" then Except.error ()
    else if s = "lastModified" then Except.error ()
    else if s = "deviceMetadata" then Except.ok (setFields r metadata_keys user_comment)
    else Except.ok (setFields r comments_keys user_comment)
  | _ => Except.ok (setFields r comments_keys user_comment)

def processUserItems (user_comment : JValue) : List JValue → Record → Except Unit Record
  | [], r => Except.ok r
  | val :: rest, r =>
    match userItemStep user_comment r val with
    | Except.ok r2 => processUserItems user_comment rest r2
    | Except.error e => Except.error e

/-- The `userComment` branch of `extract_comments`.  A string
`user_comment` iterates its characters, each hitting the final `else`
branch; `None` and numbers are not iterable. -/
def processUserComment (user_comment : JValue) (r : Record) : Except Unit Record :=
  match user_comment with
  | .dict entries => processUserEntries user_comment entries r
  | .arr items => processUserItems user_comment items r
  | .atom s => Except.ok (s.data.foldl (fun a _ => setFields a comments_keys user_comment) r)
  | _ => Except.error ()

/-- One iteration of the `for val in dev_comment` loop (dict case). -/
def processDevVal (r : Record) (val : String) (w : JValue) : Except Unit Record :=
  if val = "lastModified" then
    match extract_timestamp w with
    | Except.error e => Except.error e
    | Except.ok (s, n) =>
      Except.ok (setKey (setKey r "dev_comment_last_modified_seconds" s)
        "dev_comment_last_modified_nanos" n)
  else if val = "text" then Except.ok (setKey r "dev_comment_text" w)
  else Except.ok r

def processDevEntries : List (String × JValue) → Record → Except Unit Record
  | [], r => Except.ok r
  | (val, w) :: rest, r =>
    match processDevVal r val w with
    | Except.ok r2 => processDevEntries rest r2
    | Except.error e => Except.error e

def devItemStep (r : Record) (val : JValue) : Except Unit Record :=
  match val with
  | .atom s =>
    if s = "lastModified" then Except.error ()
    else if s = "text" then Except.error ()
    else Except.ok r
  | _ => Except.ok r

def processDevItems : List JValue → Record → Except Unit Record
  | [], r => Except.ok r
  | val :: rest, r =>
    match devItemStep r val with
    | Except.ok r2 => processDevItems rest r2
    | Except.error e => Except.error e

/-- The `developerComment` branch of `extract_comments`. -/
def processDevComment (dev_comment : JValue) (r : Record) : Except Unit Record :=
  match dev_comment with
  | .dict entries => processDevEntries entries r
  | .arr items => processDevItems items r
  | .atom _ => Except.ok r
  | _ => Except.error ()

/-- One iteration of the `for entry in comment` loop: the two `if`s on
`userComment` and `developerComment` are independent. -/
def processCommentEntry (r : Record) (entry : String) (v : JValue) : Except Unit Record :=
  match (if entry = "userComment" then processUserComment v r else Except.ok r) with
  | Except.error e => Except.error e
  | Except.ok r1 =>
    if entry = "developerComment" then processDevComment v r1 else Except.ok r1

def processCommentEntries : List (String × JValue) → Record → Except Unit Record
  | [], r => Except.ok r
  | (entry, v) :: rest, r =>
    match processCommentEntry r entry v with
    | Except.ok r2 => processCommentEntries rest r2
    | Except.error e => Except.error e

def commentItemStep (r : Record) (val : JValue) : Except Unit Record :=
  match val with
  | .atom s =>
    if s = "userComment" then Except.error ()
    else if s = "developerComment" then Except.error ()
    else Except.ok r
  | _ => Except.ok r

def processCommentItems : List JValue → Record → Except Unit Record
  | [], r => Except.ok r
  | val :: rest, r =>
    match commentItemStep r val with
    | Except.ok r2 => processCommentItems rest r2
    | Except.error e => Except.error e

/-- The ten field assignments at the top of `extract_comments`:
"Some entries may be missing, so add them as None". -/
def baseRecord (review_id author_name : JValue) : Record :=
  [("review_id", review_id),
   ("author_name", author_name),
   ("android_os_version", JValue.null),
   ("app_version_code", JValue.null),
   ("app_version_name", JValue.null),
   ("device", JValue.null),
   ("reviewer_language", JValue.null),
   ("dev_comment_last_modified_seconds", JValue.null),
   ("dev_comment_last_modified_nanos", JValue.null),
   ("dev_comment_text", JValue.null)]

/-- `extract_comments(comment, review_id, author_name)`. -/
def extract_comments (comment review_id author_name : JValue) : Except Unit Record :=
  match comment with
  | .dict entries => processCommentEntries entries (baseRecord review_id author_name)
  | .atom _ => Except.ok (baseRecord review_id author_name)
  | .arr items => processCommentItems items (baseRecord review_id author_name)
  | _ => Except.error ()

/-- The `for comment in comments` loop of `process_json`.  `rid = none`
models the function-local `review_id` still being unbound: referencing it
in the `extract_comments` call raises `UnboundLocalError`. -/
def processComments : List JValue → Option JValue → JValue → List Record →
    Except Unit (List Record)
  | [], _, _, acc => Except.ok acc
  | c :: rest, rid, an, acc =>
    match rid with
    | none => Except.error ()
    | some r =>
      match extract_comments c r an with
      | Except.error e => Except.error e
      | Except.ok rd => processComments rest rid an (acc ++ [rd])

/-- One iteration of the `for review_key in review` loop: the three
independent `if`s on `reviewId`, `authorName` and `comments`. -/
def reviewKeyStep (review_key : String) (v : JValue) (rid : Option JValue) (an : JValue)
    (acc : List Record) : Except Unit (Option JValue × JValue × List Record) :=
  let rid1 := if review_key = "reviewId" then some v else rid
  let an1 := if review_key = "authorName" then v else an
  if review_key = "comments" then
    match pyIter v with
    | Except.error e => Except.error e
    | Except.ok cs =>
      match processComments cs rid1 an1 acc with
      | Except.error e => Except.error e
      | Except.ok acc1 => Except.ok (rid1, an1, acc1)
  else Except.ok (rid1, an1, acc)

def processReviewKeys : List (String × JValue) → Option JValue → JValue → List Record →
    Except Unit (Option JValue × List Record)
  | [], rid, _, acc => Except.ok (rid, acc)
  | (k, v) :: rest, rid, an, acc =>
    match reviewKeyStep k v rid an acc with
    | Except.error e => Except.error e
    | Except.ok (rid1, an1, acc1) => processReviewKeys rest rid1 an1 acc1

/-- One iteration of the `for review in reviews` loop: `author_name` is
reset to `None` here, `review_id` is carried over unchanged.  Iterating a
non-dict review follows Python: string characters match none of the three
keys; a list item equal to one of them would be subscripted with a string
(`TypeError`); `None` and numbers are not iterable. -/
def processReview (review : JValue) (rid : Option JValue) (acc : List Record) :
    Except Unit (Option JValue × List Record) :=
  match review with
  | .dict entries => processReviewKeys entries rid JValue.null acc
  | .atom _ => Except.ok (rid, acc)
  | .arr items =>
    if items.any (fun it =>
        match it with
        | .atom s => (s == "reviewId") || (s == "authorName") || (s == "comments")
        | _ => false) then
      Except.error ()
    else Except.ok (rid, acc)
  | _ => Except.error ()

def processReviewList : List JValue → Option JValue → List Record →
    Except Unit (Option JValue × List Record)
  | [], rid, acc => Except.ok (rid, acc)
  | review :: rest, rid, acc =>
    match processReview review rid acc with
    | Except.error e => Except.error e
    | Except.ok (rid1, acc1) => processReviewList rest rid1 acc1

/-- The `for entries in review_j` loop: only the key `reviews` is acted on. -/
def processTopEntries : List (String × JValue) → Option JValue → List Record →
    Except Unit (Option JValue × List Record)
  | [], rid, acc => Except.ok (rid, acc)
  | (k, v) :: rest, rid, acc =>
    if k = "reviews" then
      match pyIter v with
      | Except.error e => Except.error e
      | Except.ok reviews =>
        match processReviewList reviews rid acc with
        | Except.error e => Except.error e
        | Except.ok (rid1, acc1) => processTopEntries rest rid1 acc1
    else processTopEntries rest rid acc

/-- `process_json(review_j)`.  The `review_id` local starts unbound and
survives from one review to the next. -/
def process_json (review_j : JValue) : Except Unit (List Record) :=
  match review_j with
  | .dict entries =>
    match processTopEntries entries none [] with
    | Except.error e => Except.error e
    | Except.ok (_, acc) => Except.ok acc
  | .atom _ => Except.ok []
  | .arr items =>
    if items.any (fun it =>
        match it with
        | .atom s => s == "reviews"
        | _ => false) then
      Except.error ()
    else Except.ok []
  | _ => Except.error ()

/-! ## Spec-side definitions

`specPreorderMatches` follows the words of the spec for the
recursive-search variant: a pre-order traversal over entries in iteration
order, descending into nested mappings and sequences, collecting the
values of entries whose key matches and whose value is not itself
composite.  It is compared with `extract_values`, the embedding of the
source. -/

mutual

def specPreorderMatches (key : String) : JValue → List JValue
  | .dict entries => specPreorderEntries key entries
  | .arr items => specPreorderItems key items
  | _ => []

def specPreorderEntries (key : String) : List (String × JValue) → List JValue
  | [] => []
  | (k, v) :: rest =>
    (if v.isComposite then specPreorderMatches key v
     else if k = key then [v] else []) ++ specPreorderEntries key rest

def specPreorderItems (key : String) : List JValue → List JValue
  | [] => []
  | item :: rest => specPreorderMatches key item ++ specPreorderItems key rest

end

mutual

/-- Whether some dict anywhere inside `obj` has an entry with this key
(regardless of the shape of the associated value). -/
def hasKey (key : String) : JValue → Bool
  | .dict entries => hasKeyEntries key entries
  | .arr items => hasKeyItems key items
  | _ => false

def hasKeyEntries (key : String) : List (String × JValue) → Bool
  | [] => false
  | (k, v) :: rest => (k == key) || hasKey key v || hasKeyEntries key rest

def hasKeyItems (key : String) : List JValue → Bool
  | [] => false
  | item :: rest => hasKey key item || hasKeyItems key rest

end

/-! ## Record-key lemmas -/

theorem keysOf_setKey (r : Record) (k : String) (v : JValue) :
    keysOf (setKey r k v) = if k ∈ keysOf r then keysOf r else keysOf r ++ [k] := by
  induction r with
  | nil => simp [setKey, keysOf]
  | cons p rest ih =>
    obtain ⟨k', w⟩ := p
    by_cases hk : k' = k
    · subst hk
      simp [setKey, keysOf]
    · simp only [setKey, if_neg hk, keysOf, List.map_cons] at ih ⊢
      rw [ih]
      have hne : ¬ (k = k') := fun h => hk h.symm
      by_cases hmem : k ∈ List.map Prod.fst rest
      · simp [List.mem_cons, hmem, hne]
      · simp [List.mem_cons, hmem, hne]

theorem mem_keysOf_setKey_iff (r : Record) (k f : String) (v : JValue) :
    f ∈ keysOf (setKey r k v) ↔ f ∈ keysOf r ∨ f = k := by
  rw [keysOf_setKey]
  by_cases hmem : k ∈ keysOf r
  · simp only [if_pos hmem]
    constructor
    · exact Or.inl
    · rintro (h | h)
      · exact h
      · exact h ▸ hmem
  · simp [if_neg hmem]

theorem mem_keysOf_setKey (r : Record) (k f : String) (v : JValue) (h : f ∈ keysOf r) :
    f ∈ keysOf (setKey r k v) :=
  (mem_keysOf_setKey_iff r k f v).mpr (Or.inl h)

theorem nodup_keysOf_setKey (r : Record) (k : String) (v : JValue)
    (h : (keysOf r).Nodup) : (keysOf (setKey r k v)).Nodup := by
  rw [keysOf_setKey]
  by_cases hmem : k ∈ keysOf r
  · simpa [if_pos hmem] using h
  · simp only [if_neg hmem]
    simpa [List.nodup_append, hmem] using h

/-! ## C8: destination-field uniqueness of the declared maps -/

/-- C8: in the program's declared extraction maps the destination field
names are pairwise unique — true for `author_keys`, `other_keys`,
`link_keys`, `content_keys` and `comments_keys`, but false for
`metadata_keys`, whose entry `("screenHeightPx", "device_screen_height_px")`
is listed twice (a verbatim duplicated line in the source). -/
theorem c8_dest_uniqueness :
    (author_keys.map KeyRule.dest).Nodup ∧
    (other_keys.map KeyRule.dest).Nodup ∧
    (link_keys.map KeyRule.dest).Nodup ∧
    (content_keys.map KeyRule.dest).Nodup ∧
    (comments_keys.map Prod.snd).Nodup ∧
    ¬ (metadata_keys.map Prod.snd).Nodup := by
  refine ⟨?_, ?_, ?_, ?_, ?_, ?_⟩ <;> decide

/-! ## Accumulator and refinement lemmas for `extract_values` -/

mutual

theorem extract_append (key : String) (obj : JValue) (a : List JValue) :
    extract key obj a = a ++ extract key obj [] := by
  cases obj with
  | dict entries => rw [extract, extract, extractEntries_append key entries a]
  | arr items => rw [extract, extract, extractItems_append key items a]
  | null => simp [extract]
  | atom s => simp [extract]
  | num n => simp [extract]

theorem extractEntries_append (key : String) (l : List (String × JValue)) (a : List JValue) :
    extractEntries key l a = a ++ extractEntries key l [] := by
  match l with
  | [] => simp [extractEntries]
  | (k, v) :: rest =>
    by_cases hc : v.isComposite
    · rw [extractEntries, if_pos hc, extractEntries, if_pos hc,
        extractEntries_append key rest (extract key v a),
        extractEntries_append key rest (extract key v []),
        extract_append key v a, List.append_assoc]
    · by_cases hk : k = key
      · rw [extractEntries, if_neg hc, if_pos hk, extractEntries, if_neg hc, if_pos hk]
        simp
      · rw [extractEntries, if_neg hc, if_neg hk, extractEntries, if_neg hc, if_neg hk,
          extractEntries_append key rest a]

theorem extractItems_append (key : String) (l : List JValue) (a : List JValue) :
    extractItems key l a = a ++ extractItems key l [] := by
  match l with
  | [] => simp [extractItems]
  | item :: rest =>
    rw [extractItems, extractItems, extractItems_append key rest (extract key item a),
      extractItems_append key rest (extract key item []), extract_append key item a,
      List.append_assoc]

end

mutual

theorem extract_head (key : String) (obj : JValue) :
    (extract key obj []).head? = (specPreorderMatches key obj).head? := by
  cases obj with
  | dict entries => rw [extract, specPreorderMatches]; exact extractEntries_head key entries
  | arr items => rw [extract, specPreorderMatches]; exact extractItems_head key items
  | null => rfl
  | atom s => rfl
  | num n => rfl

theorem extractEntries_head (key : String) (l : List (String × JValue)) :
    (extractEntries key l []).head? = (specPreorderEntries key l).head? := by
  match l with
  | [] => rfl
  | (k, v) :: rest =>
    by_cases hc : v.isComposite
    · rw [extractEntries, if_pos hc, specPreorderEntries, if_pos hc,
        extractEntries_append key rest (extract key v []), List.head?_append,
        List.head?_append, extract_head key v]
      cases hm : (specPreorderMatches key v).head? with
      | none => simp [extractEntries_head key rest]
      | some x => simp
    · by_cases hk : k = key
      · rw [extractEntries, if_neg hc, if_pos hk, specPreorderEntries, if_neg hc, if_pos hk,
          List.head?_append]
        simp
      · rw [extractEntries, if_neg hc, if_neg hk, specPreorderEntries]
        rw [if_neg hc, if_neg hk]
        simpa using extractEntries_head key rest

theorem extractItems_head (key : String) (l : List JValue) :
    (extractItems key l []).head? = (specPreorderItems key l).head? := by
  match l with
  | [] => rfl
  | item :: rest =>
    rw [extractItems, specPreorderItems,
      extractItems_append key rest (extract key item []), List.head?_append,
      List.head?_append, extract_head key item]
    cases hm : (specPreorderMatches key item).head? with
    | none => simp [extractItems_head key rest]
    | some x => simp

end

mutual

theorem specPreorder_scalar (key : String) (obj : JValue) :
    ∀ v ∈ specPreorderMatches key obj, v.isComposite = false := by
  cases obj with
  | dict entries => rw [specPreorderMatches]; exact specPreorderEntries_scalar key entries
  | arr items => rw [specPreorderMatches]; exact specPreorderItems_scalar key items
  | null => intro v hv; simp [specPreorderMatches] at hv
  | atom s => intro v hv; simp [specPreorderMatches] at hv
  | num n => intro v hv; simp [specPreorderMatches] at hv

theorem specPreorderEntries_scalar (key : String) (l : List (String × JValue)) :
    ∀ v ∈ specPreorderEntries key l, v.isComposite = false := by
  match l with
  | [] => intro v hv; simp [specPreorderEntries] at hv
  | (k, w) :: rest =>
    intro v hv
    rw [specPreorderEntries] at hv
    rcases List.mem_append.mp hv with h | h
    · by_cases hc : w.isComposite
      · rw [if_pos hc] at h
        exact specPreorder_scalar key w v h
      · rw [if_neg hc] at h
        by_cases hk : k = key
        · rw [if_pos hk] at h
          have : v = w := List.mem_singleton.mp h
          subst this
          simpa using hc
        · rw [if_neg hk] at h
          simp at h
    · exact specPreorderEntries_scalar key rest v h

theorem specPreorderItems_scalar (key : String) (l : List JValue) :
    ∀ v ∈ specPreorderItems key l, v.isComposite = false := by
  match l with
  | [] => intro v hv; simp [specPreorderItems] at hv
  | item :: rest =>
    intro v hv
    rw [specPreorderItems] at hv
    rcases List.mem_append.mp hv with h | h
    · exact specPreorder_scalar key item v h
    · exact specPreorderItems_scalar key rest v h

end

/-- `extract_values` returns the head of the collected list, `None` when
it is empty. -/
theorem extract_values_eq_head (obj : JValue) (key : String) :
    extract_values obj key = ((extract key obj []).head?).getD JValue.null := by
  rw [extract_values]
  cases extract key obj [] with
  | nil => rfl
  | cons v rest => rfl

/-- C5: `extract_values(obj, key)` is a deterministic pre-order search over
entries in iteration order: it returns the first value of the pre-order
match list prescribed by the spec (`specPreorderMatches`), and `None`
(`JValue.null`) when that list is empty, i.e. when no match exists
anywhere in `obj`.  Determinism across runs is inherent: the embedding is
a pure function of `(obj, key)`. -/
theorem c5_first_preorder_match (obj : JValue) (key : String) :
    extract_values obj key = ((specPreorderMatches key obj).head?).getD JValue.null := by
  rw [extract_values_eq_head, extract_head]

/-- C10: `extract_values` never returns a mapping or a sequence: a key
whose value is composite is never matched directly (the search descends
instead), so on an input where the key occurs, but every scalar-valued
match list is empty (the key occurs only with composite values),
`extract_values` returns `None` although the key is present. -/
theorem c10_never_composite (obj : JValue) (key : String) :
    (extract_values obj key).isComposite = false ∧
    (hasKey key obj = true → specPreorderMatches key obj = [] →
      extract_values obj key = JValue.null) := by
  constructor
  · rw [c5_first_preorder_match]
    cases hm : (specPreorderMatches key obj).head? with
    | none => rfl
    | some v =>
      have hv : v ∈ specPreorderMatches key obj := by
        cases hl : specPreorderMatches key obj with
        | nil => rw [hl] at hm; simp at hm
        | cons x rest =>
          rw [hl] at hm
          simp only [List.head?_cons, Option.some.injEq] at hm
          rw [hm] at hl ⊢
          exact List.mem_cons_self _ _
      simpa using specPreorder_scalar key obj v hv
  · intro _ hempty
    rw [c5_first_preorder_match, hempty]
    rfl

/-- Witness for C10: in `{"k": {"x": 1}}` the key `"k"` is present, but
only with a composite (dict) value, so the search returns `None`. -/
theorem c10_witness :
    hasKey "k" (JValue.dict [("k", JValue.dict [("x", JValue.num 1)])]) = true ∧
    specPreorderMatches "k" (JValue.dict [("k", JValue.dict [("x", JValue.num 1)])]) = [] ∧
    extract_values (JValue.dict [("k", JValue.dict [("x", JValue.num 1)])]) "k" = JValue.null ∧
    (extract_values (JValue.dict [("k", JValue.dict [("x", JValue.num 1)])]) "k").isComposite
      = false :=
  ⟨rfl, rfl,
    (c10_never_composite (JValue.dict [("k", JValue.dict [("x", JValue.num 1)])]) "k").2
      rfl rfl,
    (c10_never_composite (JValue.dict [("k", JValue.dict [("x", JValue.num 1)])]) "k").1⟩

/-! ## C1 / C6: `extract_matches` -/

theorem ematchRules_ok_keys (rules : List KeyRule) (entry : String) (v : JValue) :
    ∀ (acc acc2 : Record), ematchRules rules entry v acc = Except.ok acc2 →
      ∀ f, (f ∈ keysOf acc2 ↔ f ∈ keysOf acc ∨ ∃ r ∈ rules, r.src = entry ∧ r.dest = f) := by
  induction rules with
  | nil =>
    intro acc acc2 h f
    rw [ematchRules] at h
    cases h
    simp
  | cons r rest ih =>
    intro acc acc2 h f
    rw [ematchRules] at h
    by_cases hsrc : entry = r.src
    · rw [if_pos hsrc] at h
      by_cases hnst : r.nested = ""
      · rw [if_pos hnst] at h
        have := ih (setKey acc r.dest v) acc2 h f
        rw [this, mem_keysOf_setKey_iff]
        simp only [List.mem_cons]
        constructor
        · rintro ((hf | hf) | ⟨x, hx, hxs, hxd⟩)
          · exact Or.inl hf
          · exact Or.inr ⟨r, Or.inl rfl, hsrc.symm, hf.symm⟩
          · exact Or.inr ⟨x, Or.inr hx, hxs, hxd⟩
        · rintro (hf | ⟨x, hx | hx, hxs, hxd⟩)
          · exact Or.inl (Or.inl hf)
          · exact Or.inl (Or.inr (by rw [hx] at hxd; exact hxd.symm))
          · exact Or.inr ⟨x, hx, hxs, hxd⟩
      · rw [if_neg hnst] at h
        cases hnix : nestedIndex v r.nested with
        | error e => rw [hnix] at h; cases h
        | ok w =>
          rw [hnix] at h
          have := ih (setKey acc r.dest w) acc2 h f
          rw [this, mem_keysOf_setKey_iff]
          simp only [List.mem_cons]
          constructor
          · rintro ((hf | hf) | ⟨x, hx, hxs, hxd⟩)
            · exact Or.inl hf
            · exact Or.inr ⟨r, Or.inl rfl, hsrc.symm, hf.symm⟩
            · exact Or.inr ⟨x, Or.inr hx, hxs, hxd⟩
          · rintro (hf | ⟨x, hx | hx, hxs, hxd⟩)
            · exact Or.inl (Or.inl hf)
            · exact Or.inl (Or.inr (by rw [hx] at hxd; exact hxd.symm))
            · exact Or.inr ⟨x, hx, hxs, hxd⟩
    · rw [if_neg hsrc] at h
      have := ih acc acc2 h f
      rw [this]
      simp only [List.mem_cons]
      constructor
      · rintro (hf | ⟨x, hx, hxs, hxd⟩)
        · exact Or.inl hf
        · exact Or.inr ⟨x, Or.inr hx, hxs, hxd⟩
      · rintro (hf | ⟨x, hx | hx, hxs, hxd⟩)
        · exact Or.inl hf
        · exact absurd (hx ▸ hxs).symm hsrc
        · exact Or.inr ⟨x, hx, hxs, hxd⟩

theorem ematchRules_ok_nodup (rules : List KeyRule) (entry : String) (v : JValue) :
    ∀ (acc acc2 : Record), ematchRules rules entry v acc = Except.ok acc2 →
      (keysOf acc).Nodup → (keysOf acc2).Nodup := by
  induction rules with
  | nil =>
    intro acc acc2 h hnd
    rw [ematchRules] at h
    cases h
    exact hnd
  | cons r rest ih =>
    intro acc acc2 h hnd
    rw [ematchRules] at h
    by_cases hsrc : entry = r.src
    · rw [if_pos hsrc] at h
      by_cases hnst : r.nested = ""
      · rw [if_pos hnst] at h
        exact ih _ _ h (nodup_keysOf_setKey _ _ _ hnd)
      · rw [if_neg hnst] at h
        cases hnix : nestedIndex v r.nested with
        | error e => rw [hnix] at h; cases h
        | ok w =>
          rw [hnix] at h
          exact ih _ _ h (nodup_keysOf_setKey _ _ _ hnd)
    · rw [if_neg hsrc] at h
      exact ih _ _ h hnd

theorem ematchDict_ok_keys (rules : List KeyRule) (entries : List (String × JValue)) :
    ∀ (acc r : Record), ematchDict rules entries acc = Except.ok r →
      ∀ f, (f ∈ keysOf r ↔
        f ∈ keysOf acc ∨ ∃ p ∈ entries, ∃ kr ∈ rules, kr.src = p.1 ∧ kr.dest = f) := by
  induction entries with
  | nil =>
    intro acc r h f
    rw [ematchDict] at h
    cases h
    simp
  | cons p rest ih =>
    intro acc r h f
    obtain ⟨k, v⟩ := p
    rw [ematchDict] at h
    cases hstep : ematchRules rules k v acc with
    | error e => rw [hstep] at h; cases h
    | ok acc2 =>
      rw [hstep] at h
      have h2 := ih acc2 r h f
      have h1 := ematchRules_ok_keys rules k v acc acc2 hstep f
      rw [h2, h1]
      simp only [List.mem_cons]
      constructor
      · rintro ((hf | ⟨x, hx, hxs, hxd⟩) | ⟨q, hq, x, hx, hxs, hxd⟩)
        · exact Or.inl hf
        · exact Or.inr ⟨(k, v), Or.inl rfl, x, hx, hxs, hxd⟩
        · exact Or.inr ⟨q, Or.inr hq, x, hx, hxs, hxd⟩
      · rintro (hf | ⟨q, hq | hq, x, hx, hxs, hxd⟩)
        · exact Or.inl (Or.inl hf)
        · exact Or.inl (Or.inr ⟨x, hx, by rw [hq] at hxs; exact hxs, hxd⟩)
        · exact Or.inr ⟨q, hq, x, hx, hxs, hxd⟩

theorem ematchDict_ok_nodup (rules : List KeyRule) (entries : List (String × JValue)) :
    ∀ (acc r : Record), ematchDict rules entries acc = Except.ok r →
      (keysOf acc).Nodup → (keysOf r).Nodup := by
  induction entries with
  | nil =>
    intro acc r h hnd
    rw [ematchDict] at h
    cases h
    exact hnd
  | cons p rest ih =>
    intro acc r h hnd
    obtain ⟨k, v⟩ := p
    rw [ematchDict] at h
    cases hstep : ematchRules rules k v acc with
    | error e => rw [hstep] at h; cases h
    | ok acc2 =>
      rw [hstep] at h
      exact ih _ _ h (ematchRules_ok_nodup rules k v acc acc2 hstep hnd)

/-- C1, counterexample to the claim as stated: for the map
`[("a", "b", "dest_a")]` and the section `{"a": {}}` the source key `"a"`
is present but the nested key `"b"` is not, and `extract_matches` raises a
`KeyError` instead of returning a record. -/
theorem c1_counterexample :
    extract_matches [⟨"a", "b", "dest_a"⟩] (JValue.dict [("a", JValue.dict [])]) =
      Except.error () := rfl

/-- C1, amended: whenever `extract_matches(M, S)` completes without an
exception (every matching rule's nested lookup succeeds), the returned
record's keys are exactly the destination fields of rules whose source
key occurs as a key of `S` — absent source keys contribute no entry,
unmatched keys of `S` are ignored — and no destination field appears
twice. -/
theorem c1_extract_matches_keys (M : List KeyRule) (S : List (String × JValue)) (r : Record)
    (hsrc : (M.map KeyRule.src).Nodup)
    (h : extract_matches M (JValue.dict S) = Except.ok r) :
    (keysOf r).Nodup ∧
      ∀ f, (f ∈ keysOf r ↔ ∃ kr ∈ M, kr.dest = f ∧ kr.src ∈ keysOf S) := by
  rw [extract_matches] at h
  refine ⟨ematchDict_ok_nodup M S [] r h (by simp [keysOf]), fun f => ?_⟩
  rw [ematchDict_ok_keys M S [] r h f]
  simp only [keysOf, List.map_nil, List.not_mem_nil, false_or, List.mem_map]
  constructor
  · rintro ⟨p, hp, kr, hkr, hks, hkd⟩
    exact ⟨kr, hkr, hkd, p, hp, hks.symm⟩
  · rintro ⟨kr, hkr, hkd, p, hp, hks⟩
    exact ⟨p, hp, kr, hkr, hks.symm, hkd⟩

/-- Witness for C1 (amended): `author_keys` applied to a complete author
section yields a duplicate-free record containing `author_uri`. -/
theorem c1_witness :
    "author_uri" ∈ keysOf
      [("author_uri", JValue.atom "u"), ("author_name", JValue.atom "n")] ∧
    (keysOf [("author_uri", JValue.atom "u"), ("author_name", JValue.atom "n")]).Nodup := by
  have h := c1_extract_matches_keys author_keys
    [("uri", JValue.dict [("label", JValue.atom "u")]),
     ("name", JValue.dict [("label", JValue.atom "n")])]
    [("author_uri", JValue.atom "u"), ("author_name", JValue.atom "n")]
    (by decide) rfl
  refine ⟨(h.2 "author_uri").mpr ?_, h.1⟩
  exact ⟨⟨"uri", "label", "author_uri"⟩, by decide, rfl, by decide⟩

theorem ematchRules_error (rules : List KeyRule) (entry : String) (v : JValue) :
    ∀ (acc : Record),
      (∃ r ∈ rules, r.src = entry ∧ r.nested ≠ "" ∧
        nestedIndex v r.nested = Except.error ()) →
      ematchRules rules entry v acc = Except.error () := by
  induction rules with
  | nil =>
    intro acc h
    obtain ⟨r, hr, _⟩ := h
    simp at hr
  | cons r rest ih =>
    intro acc h
    obtain ⟨x, hx, hxs, hxn, hxe⟩ := h
    rw [ematchRules]
    rcases List.mem_cons.mp hx with hhead | htail
    · subst hhead
      rw [if_pos hxs.symm, if_neg hxn, hxe]
    · by_cases hsrc : entry = r.src
      · rw [if_pos hsrc]
        by_cases hnst : r.nested = ""
        · rw [if_pos hnst]
          exact ih _ ⟨x, htail, hxs, hxn, hxe⟩
        · rw [if_neg hnst]
          cases hnix : nestedIndex v r.nested with
          | error e => rfl
          | ok w => exact ih _ ⟨x, htail, hxs, hxn, hxe⟩
      · rw [if_neg hsrc]
        exact ih _ ⟨x, htail, hxs, hxn, hxe⟩

theorem ematchDict_error (rules : List KeyRule) (entries : List (String × JValue)) :
    ∀ (acc : Record),
      (∃ p ∈ entries, ∃ r ∈ rules, r.src = p.1 ∧ r.nested ≠ "" ∧
        nestedIndex p.2 r.nested = Except.error ()) →
      ematchDict rules entries acc = Except.error () := by
  induction entries with
  | nil =>
    intro acc h
    obtain ⟨p, hp, _⟩ := h
    simp at hp
  | cons q rest ih =>
    intro acc h
    obtain ⟨p, hp, x, hx, hxs, hxn, hxe⟩ := h
    obtain ⟨k, v⟩ := q
    rw [ematchDict]
    rcases List.mem_cons.mp hp with hhead | htail
    · subst hhead
      rw [ematchRules_error rules k v acc ⟨x, hx, hxs, hxn, hxe⟩]
    · cases hstep : ematchRules rules k v acc with
      | error e => rfl
      | ok acc2 => exact ih _ ⟨p, htail, x, hx, hxs, hxn, hxe⟩

/-- C6, counterexample to the claim as stated: with the rule
`("x", "missing", "d")` and the section `{"x": {"other": "v"}}` the
source key is present but the nested key is not, and the field is not
silently missing — `extract_matches` raises a `KeyError`. -/
theorem c6_counterexample :
    extract_matches [⟨"x", "missing", "d"⟩]
      (JValue.dict [("x", JValue.dict [("other", JValue.atom "v")])]) =
      Except.error () := rfl

/-- C6, amended: for every rule whose nested key is non-empty, when the
rule's source key is present in the section but the nested key is not
found under it, `extract_matches` raises an exception (`KeyError` /
`TypeError`, modelled as `Except.error ()`) rather than producing a
record that silently lacks the field. -/
theorem c6_missing_nested_raises (M : List KeyRule) (S : List (String × JValue))
    (h : ∃ p ∈ S, ∃ kr ∈ M, kr.src = p.1 ∧ kr.nested ≠ "" ∧
      nestedIndex p.2 kr.nested = Except.error ()) :
    extract_matches M (JValue.dict S) = Except.error () := by
  rw [extract_matches]
  exact ematchDict_error M S [] h

/-- Witness for C6 (amended): `link_keys` against a link section whose
`attributes` dict lacks `href`. -/
theorem c6_witness :
    extract_matches link_keys
      (JValue.dict [("attributes", JValue.dict [("rel", JValue.atom "alternate")])]) =
      Except.error () :=
  c6_missing_nested_raises link_keys
    [("attributes", JValue.dict [("rel", JValue.atom "alternate")])]
    ⟨("attributes", JValue.dict [("rel", JValue.atom "alternate")]),
      List.mem_cons_self _ _,
      ⟨"attributes", "href", "link_attributes_href"⟩,
      by decide, rfl, by decide, rfl⟩

/-! ## C2 / C3: the pagination loop -/

theorem processItems_ok (items : List JValue) :
    ∀ (all : List Record), (∀ rv ∈ items, (flatten_review rv).isOk = true) →
      processItems all items = Except.ok (all ++ flattenOk items) := by
  induction items with
  | nil => intro all _; simp [processItems, flattenOk]
  | cons rv rest ih =>
    intro all hok
    have h1 := hok rv (List.mem_cons_self _ _)
    cases hfr : flatten_review rv with
    | error e => rw [hfr] at h1; simp [Except.isOk, Except.toBool] at h1
    | ok r =>
      rw [processItems]
      simp only [hfr]
      rw [ih (all ++ [r]) (fun x hx => hok x (List.mem_cons_of_mem _ hx))]
      simp [flattenOk, hfr, List.filterMap_cons, Except.toOption]

theorem collect_loop_pages (fetch : Nat → Option JValue) (pages : List (List JValue)) :
    ∀ (fuel page : Nat) (all : List Record),
      pages.length < fuel →
      (∀ i (h : i < pages.length), ∃ p, fetch (page + i + 1) = some p ∧
          reviewListOf p = Except.ok (pages.get ⟨i, h⟩)) →
      (∀ l ∈ pages, ∀ rv ∈ l, (flatten_review rv).isOk = true) →
      (∃ q, fetch (page + pages.length + 1) = some q ∧
          reviewListOf q = Except.error ()) →
      collect_loop fetch fuel page all = some (all ++ (pages.map flattenOk).flatten) := by
  induction pages with
  | nil =>
    intro fuel page all hlt _ _ hend
    obtain ⟨q, hq, hqe⟩ := hend
    simp only [List.length_nil, Nat.add_zero] at hq
    cases fuel with
    | zero => omega
    | succ f =>
      simp only [collect_loop]
      rw [hq]
      simp only [reviewListOf] at hqe
      cases hchain : (nestedIndex q "feed").bind (fun x => nestedIndex x "entry") with
      | error e => simp [hchain]
      | ok entry =>
        simp only [hchain] at hqe
        simp only [hchain, process_reviews, hqe]
        simp
  | cons l rest ih =>
    intro fuel page all hlt hfetch hproc hend
    cases fuel with
    | zero => simp only [List.length_cons] at hlt; omega
    | succ f =>
      obtain ⟨p, hp, hrl⟩ := hfetch 0 (by simp)
      simp only [Nat.add_zero] at hp
      have hrl2 : reviewListOf p = Except.ok l := hrl
      simp only [collect_loop]
      rw [hp]
      simp only [reviewListOf] at hrl2
      cases hchain : (nestedIndex p "feed").bind (fun x => nestedIndex x "entry") with
      | error e => rw [hchain] at hrl2; cases hrl2
      | ok entry =>
        rw [hchain] at hrl2
        simp only at hrl2
        simp only [hchain, process_reviews, hrl2]
        rw [processItems_ok l all (hproc l (List.mem_cons_self _ _))]
        show collect_loop fetch f (page + 1) (all ++ flattenOk l) = _
        rw [ih f (page + 1) (all ++ flattenOk l)
          (by simp only [List.length_cons] at hlt; omega)
          ?_ (fun x hx => hproc x (List.mem_cons_of_mem _ hx)) ?_]
        · simp [List.append_assoc]
        · intro i h
          obtain ⟨p', hp', hr'⟩ := hfetch (i + 1) (by simp only [List.length_cons]; omega)
          refine ⟨p', ?_, hr'⟩
          have h3 : page + 1 + i + 1 = page + (i + 1) + 1 := by omega
          rw [h3]
          exact hp'
        · obtain ⟨q, hq, hqe⟩ := hend
          refine ⟨q, ?_, hqe⟩
          have h3 : page + 1 + rest.length + 1 = page + (l :: rest).length + 1 := by
            simp only [List.length_cons]
            omega
          rw [h3]
          exact hq

theorem collect_loop_fetch_none (fetch : Nat → Option JValue) (pages : List (List JValue)) :
    ∀ (fuel page : Nat) (all : List Record),
      pages.length < fuel →
      (∀ i (h : i < pages.length), ∃ p, fetch (page + i + 1) = some p ∧
          reviewListOf p = Except.ok (pages.get ⟨i, h⟩)) →
      (∀ l ∈ pages, ∀ rv ∈ l, (flatten_review rv).isOk = true) →
      fetch (page + pages.length + 1) = none →
      collect_loop fetch fuel page all = none := by
  induction pages with
  | nil =>
    intro fuel page all hlt _ _ hend
    simp only [List.length_nil, Nat.add_zero] at hend
    cases fuel with
    | zero => omega
    | succ f =>
      simp only [collect_loop]
      rw [hend]
  | cons l rest ih =>
    intro fuel page all hlt hfetch hproc hend
    cases fuel with
    | zero => simp only [List.length_cons] at hlt; omega
    | succ f =>
      obtain ⟨p, hp, hrl⟩ := hfetch 0 (by simp)
      simp only [Nat.add_zero] at hp
      have hrl2 : reviewListOf p = Except.ok l := hrl
      simp only [collect_loop]
      rw [hp]
      simp only [reviewListOf] at hrl2
      cases hchain : (nestedIndex p "feed").bind (fun x => nestedIndex x "entry") with
      | error e => rw [hchain] at hrl2; cases hrl2
      | ok entry =>
        rw [hchain] at hrl2
        simp only at hrl2
        simp only [hchain, process_reviews, hrl2]
        rw [processItems_ok l all (hproc l (List.mem_cons_self _ _))]
        show collect_loop fetch f (page + 1) (all ++ flattenOk l) = none
        refine ih f (page + 1) (all ++ flattenOk l)
          (by simp only [List.length_cons] at hlt; omega)
          ?_ (fun x hx => hproc x (List.mem_cons_of_mem _ hx)) ?_
        · intro i h
          obtain ⟨p', hp', hr'⟩ := hfetch (i + 1) (by simp only [List.length_cons]; omega)
          refine ⟨p', ?_, hr'⟩
          have h3 : page + 1 + i + 1 = page + (i + 1) + 1 := by omega
          rw [h3]
          exact hp'
        · have h3 : page + 1 + rest.length + 1 = page + (l :: rest).length + 1 := by
            simp only [List.length_cons]
            omega
          rw [h3]
          exact hend

/-- C2: with a fetcher yielding well-formed pages `1..N` (each carrying the
`feed`/`entry` review list, whose reviews all flatten) followed by a page
whose review-list field is missing or malformed, and `N < no_of_pages`,
`get_and_collect_reviews` walks the pages in order, stops at the malformed
page, and returns exactly the flattened records of the first `N` pages, in
page order then in-page order. -/
theorem c2_pagination_termination (fetch : Nat → Option JValue) (pages : List (List JValue))
    (no_of_pages : Nat) (hlt : pages.length < no_of_pages)
    (hfetch : ∀ i (h : i < pages.length), ∃ p, fetch (i + 1) = some p ∧
        reviewListOf p = Except.ok (pages.get ⟨i, h⟩))
    (hproc : ∀ l ∈ pages, ∀ rv ∈ l, (flatten_review rv).isOk = true)
    (hend : ∃ q, fetch (pages.length + 1) = some q ∧ reviewListOf q = Except.error ()) :
    get_and_collect_reviews fetch no_of_pages = some ((pages.map flattenOk).flatten) := by
  rw [get_and_collect_reviews]
  rw [collect_loop_pages fetch pages no_of_pages 0 [] hlt ?_ hproc ?_]
  · simp
  · intro i h
    obtain ⟨p, hp, hr⟩ := hfetch i h
    exact ⟨p, by rw [Nat.zero_add]; exact hp, hr⟩
  · obtain ⟨q, hq, hqe⟩ := hend
    exact ⟨q, by rw [Nat.zero_add]; exact hq, hqe⟩

/-- A complete sample App Store review entry. -/
def sampleReview : JValue :=
  JValue.dict
    [("im:rating", JValue.dict [("label", JValue.atom "5")]),
     ("author", JValue.dict
       [("uri", JValue.dict [("label", JValue.atom "u")]),
        ("name", JValue.dict [("label", JValue.atom "n")])]),
     ("link", JValue.dict
       [("attributes", JValue.dict [("rel", JValue.atom "rl"), ("href", JValue.atom "h")])]),
     ("im:contentType", JValue.dict
       [("attributes", JValue.dict [("term", JValue.atom "t"), ("label", JValue.atom "lb")])])]

/-- A well-formed page holding `sampleReview` under `feed`/`entry`. -/
def samplePage : JValue :=
  JValue.dict [("feed", JValue.dict [("entry", JValue.arr [sampleReview])])]

/-- The flat record `sampleReview` produces. -/
def sampleFlat : Record :=
  [("im_rating", JValue.atom "5"),
   ("author_uri", JValue.atom "u"),
   ("author_name", JValue.atom "n"),
   ("link_attributes_related", JValue.atom "rl"),
   ("link_attributes_href", JValue.atom "h"),
   ("content_attributes_term", JValue.atom "t"),
   ("content_attributes_label", JValue.atom "lb")]

/-- One good page, then pages with no `feed` key (malformed). -/
def c2fetch : Nat → Option JValue :=
  fun i => if i = 1 then some samplePage else some (JValue.dict [])

/-- Witness for C2: one well-formed page, then a malformed one, with
`no_of_pages = 2`. -/
theorem c2_witness :
    get_and_collect_reviews c2fetch 2 = some (([[sampleReview]].map flattenOk).flatten) :=
  c2_pagination_termination c2fetch [[sampleReview]] 2 (by decide)
    (by
      intro i h
      have h0 : i = 0 := by simpa using Nat.lt_one_iff.mp (by simpa using h)
      subst h0
      exact ⟨samplePage, rfl, rfl⟩)
    (by
      intro l hl rv hrv
      rw [List.mem_singleton] at hl
      subst hl
      rw [List.mem_singleton] at hrv
      subst hrv
      rfl)
    ⟨JValue.dict [], rfl, rfl⟩

/-- One good page, then the fetch fails (`get_reviews` returns `None`). -/
def c3fetch : Nat → Option JValue :=
  fun i => if i = 1 then some samplePage else none

/-- C3, counterexample to the claim as stated: the same fetcher run over
one page yields the page's record, but run over two pages — where page 2's
fetch yields absent — the whole call returns `None`: the batch collected
from page 1 is lost, not returned. -/
theorem c3_counterexample :
    get_and_collect_reviews c3fetch 1 = some [sampleFlat] ∧
    get_and_collect_reviews c3fetch 2 = none := ⟨rfl, rfl⟩

/-- C3, amended: a fetch failure (absent response) on any page — not only
the very first — makes `get_and_collect_reviews` return `None`, discarding
every record collected from the earlier pages; partial results survive
only the structural end-of-data path, not a fetch failure. -/
theorem c3_fetch_failure_returns_none (fetch : Nat → Option JValue)
    (pages : List (List JValue)) (no_of_pages : Nat)
    (hlt : pages.length < no_of_pages)
    (hfetch : ∀ i (h : i < pages.length), ∃ p, fetch (i + 1) = some p ∧
        reviewListOf p = Except.ok (pages.get ⟨i, h⟩))
    (hproc : ∀ l ∈ pages, ∀ rv ∈ l, (flatten_review rv).isOk = true)
    (hend : fetch (pages.length + 1) = none) :
    get_and_collect_reviews fetch no_of_pages = none := by
  rw [get_and_collect_reviews]
  refine collect_loop_fetch_none fetch pages no_of_pages 0 [] hlt ?_ hproc ?_
  · intro i h
    obtain ⟨p, hp, hr⟩ := hfetch i h
    exact ⟨p, by rw [Nat.zero_add]; exact hp, hr⟩
  · rw [Nat.zero_add]
    exact hend

/-- Witness for C3 (amended): page 1 succeeds, page 2's fetch is absent,
and the run returns `None`. -/
theorem c3_witness : get_and_collect_reviews c3fetch 2 = none :=
  c3_fetch_failure_returns_none c3fetch [[sampleReview]] 2 (by decide)
    (by
      intro i h
      have h0 : i = 0 := by simpa using Nat.lt_one_iff.mp (by simpa using h)
      subst h0
      exact ⟨samplePage, rfl, rfl⟩)
    (by
      intro l hl rv hrv
      rw [List.mem_singleton] at hl
      subst hl
      rw [List.mem_singleton] at hrv
      subst hrv
      rfl)
    rfl

/-! ## C4: column set of `extract_comments` -/

/-- The ten field names assigned unconditionally at the top of
`extract_comments`. -/
def baseFields : List String :=
  ["review_id", "author_name", "android_os_version", "app_version_code",
   "app_version_name", "device", "reviewer_language",
   "dev_comment_last_modified_seconds", "dev_comment_last_modified_nanos",
   "dev_comment_text"]

theorem keysOf_baseRecord (rid an : JValue) : keysOf (baseRecord rid an) = baseFields := rfl

theorem mem_keysOf_setFields (pairs : List (String × String)) (src : JValue) :
    ∀ (r : Record) (f : String), f ∈ keysOf r → f ∈ keysOf (setFields r pairs src) := by
  induction pairs with
  | nil => intro r f h; rw [setFields]; exact h
  | cons p rest ih =>
    intro r f h
    rw [setFields]
    exact ih _ f (mem_keysOf_setKey _ _ _ _ h)

theorem mem_keysOf_processUserVal (u : JValue) (r : Record) (val : String) (w : JValue)
    (r2 : Record) (h : processUserVal u r val w = Except.ok r2) (f : String)
    (hf : f ∈ keysOf r) : f ∈ keysOf r2 := by
  simp only [processUserVal] at h
  by_cases h1 : val = "text"
  · rw [if_pos h1] at h
    cases h
    exact mem_keysOf_setKey _ _ _ _ hf
  · rw [if_neg h1] at h
    by_cases h2 : val = "lastModified"
    · rw [if_pos h2] at h
      cases hts : extract_timestamp w with
      | error e => rw [hts] at h; cases h
      | ok p =>
        obtain ⟨s, n⟩ := p
        rw [hts] at h
        simp only at h
        cases h
        exact mem_keysOf_setKey _ _ _ _ (mem_keysOf_setKey _ _ _ _ hf)
    · rw [if_neg h2] at h
      by_cases h3 : val = "deviceMetadata"
      · rw [if_pos h3] at h
        cases h
        exact mem_keysOf_setFields _ _ _ _ hf
      · rw [if_neg h3] at h
        cases h
        exact mem_keysOf_setFields _ _ _ _ hf

theorem mem_keysOf_processUserEntries (u : JValue) (entries : List (String × JValue)) :
    ∀ (r r2 : Record), processUserEntries u entries r = Except.ok r2 →
      ∀ f, f ∈ keysOf r → f ∈ keysOf r2 := by
  induction entries with
  | nil =>
    intro r r2 h f hf
    rw [processUserEntries] at h
    cases h
    exact hf
  | cons p rest ih =>
    intro r r2 h f hf
    obtain ⟨val, w⟩ := p
    rw [processUserEntries] at h
    cases hstep : processUserVal u r val w with
    | error e => rw [hstep] at h; cases h
    | ok rmid =>
      rw [hstep] at h
      exact ih rmid r2 h f (mem_keysOf_processUserVal u r val w rmid hstep f hf)

theorem mem_keysOf_userItemStep (u : JValue) (r : Record) (val : JValue) (r2 : Record)
    (h : userItemStep u r val = Except.ok r2) (f : String) (hf : f ∈ keysOf r) :
    f ∈ keysOf r2 := by
  cases val with
  | atom s =>
    simp only [userItemStep] at h
    by_cases h1 : s = "text"
    · rw [if_pos h1] at h; cases h
    · rw [if_neg h1] at h
      by_cases h2 : s = "lastModified"
      · rw [if_pos h2] at h; cases h
      · rw [if_neg h2] at h
        by_cases h3 : s = "deviceMetadata"
        · rw [if_pos h3] at h
          cases h
          exact mem_keysOf_setFields _ _ _ _ hf
        · rw [if_neg h3] at h
          cases h
          exact mem_keysOf_setFields _ _ _ _ hf
  | null =>
    have h2 : Except.ok (setFields r comments_keys u) = Except.ok r2 := h
    injection h2 with h3
    subst h3
    exact mem_keysOf_setFields _ _ _ _ hf
  | num n =>
    have h2 : Except.ok (setFields r comments_keys u) = Except.ok r2 := h
    injection h2 with h3
    subst h3
    exact mem_keysOf_setFields _ _ _ _ hf
  | dict d =>
    have h2 : Except.ok (setFields r comments_keys u) = Except.ok r2 := h
    injection h2 with h3
    subst h3
    exact mem_keysOf_setFields _ _ _ _ hf
  | arr l =>
    have h2 : Except.ok (setFields r comments_keys u) = Except.ok r2 := h
    injection h2 with h3
    subst h3
    exact mem_keysOf_setFields _ _ _ _ hf

theorem mem_keysOf_processUserItems (u : JValue) (items : List JValue) :
    ∀ (r r2 : Record), processUserItems u items r = Except.ok r2 →
      ∀ f, f ∈ keysOf r → f ∈ keysOf r2 := by
  induction items with
  | nil =>
    intro r r2 h f hf
    rw [processUserItems] at h
    cases h
    exact hf
  | cons val rest ih =>
    intro r r2 h f hf
    rw [processUserItems] at h
    cases hstep : userItemStep u r val with
    | error e => rw [hstep] at h; cases h
    | ok rmid =>
      rw [hstep] at h
      exact ih rmid r2 h f (mem_keysOf_userItemStep u r val rmid hstep f hf)

theorem mem_keysOf_foldl_setFields (u : JValue) (cs : List Char) :
    ∀ (r : Record) (f : String), f ∈ keysOf r →
      f ∈ keysOf (cs.foldl (fun a _ => setFields a comments_keys u) r) := by
  induction cs with
  | nil => intro r f h; exact h
  | cons c rest ih =>
    intro r f h
    rw [List.foldl_cons]
    exact ih _ f (mem_keysOf_setFields _ _ _ _ h)

theorem mem_keysOf_processUserComment (u : JValue) (r r2 : Record)
    (h : processUserComment u r = Except.ok r2) (f : String) (hf : f ∈ keysOf r) :
    f ∈ keysOf r2 := by
  cases u with
  | dict entries =>
    rw [processUserComment] at h
    exact mem_keysOf_processUserEntries _ entries r r2 h f hf
  | arr items =>
    rw [processUserComment] at h
    exact mem_keysOf_processUserItems _ items r r2 h f hf
  | atom s =>
    rw [processUserComment] at h
    cases h
    exact mem_keysOf_foldl_setFields _ _ r f hf
  | null =>
    have h2 : (Except.error () : Except Unit Record) = Except.ok r2 := h
    exact Except.noConfusion h2
  | num n =>
    have h2 : (Except.error () : Except Unit Record) = Except.ok r2 := h
    exact Except.noConfusion h2

theorem mem_keysOf_processDevVal (r : Record) (val : String) (w : JValue) (r2 : Record)
    (h : processDevVal r val w = Except.ok r2) (f : String) (hf : f ∈ keysOf r) :
    f ∈ keysOf r2 := by
  simp only [processDevVal] at h
  by_cases h1 : val = "lastModified"
  · rw [if_pos h1] at h
    cases hts : extract_timestamp w with
    | error e => rw [hts] at h; cases h
    | ok p =>
      obtain ⟨s, n⟩ := p
      rw [hts] at h
      simp only at h
      cases h
      exact mem_keysOf_setKey _ _ _ _ (mem_keysOf_setKey _ _ _ _ hf)
  · rw [if_neg h1] at h
    by_cases h2 : val = "text"
    · rw [if_pos h2] at h
      cases h
      exact mem_keysOf_setKey _ _ _ _ hf
    · rw [if_neg h2] at h
      cases h
      exact hf

theorem mem_keysOf_processDevEntries (entries : List (String × JValue)) :
    ∀ (r r2 : Record), processDevEntries entries r = Except.ok r2 →
      ∀ f, f ∈ keysOf r → f ∈ keysOf r2 := by
  induction entries with
  | nil =>
    intro r r2 h f hf
    rw [processDevEntries] at h
    cases h
    exact hf
  | cons p rest ih =>
    intro r r2 h f hf
    obtain ⟨val, w⟩ := p
    rw [processDevEntries] at h
    cases hstep : processDevVal r val w with
    | error e => rw [hstep] at h; cases h
    | ok rmid =>
      rw [hstep] at h
      exact ih rmid r2 h f (mem_keysOf_processDevVal r val w rmid hstep f hf)

theorem mem_keysOf_devItemStep (r : Record) (val : JValue) (r2 : Record)
    (h : devItemStep r val = Except.ok r2) (f : String) (hf : f ∈ keysOf r) :
    f ∈ keysOf r2 := by
  cases val with
  | atom s =>
    simp only [devItemStep] at h
    by_cases h1 : s = "lastModified"
    · rw [if_pos h1] at h; cases h
    · rw [if_neg h1] at h
      by_cases h2 : s = "text"
      · rw [if_pos h2] at h; cases h
      · rw [if_neg h2] at h; cases h; exact hf
  | null =>
    have h2 : Except.ok r = Except.ok r2 := h
    injection h2 with h3
    subst h3
    exact hf
  | num n =>
    have h2 : Except.ok r = Except.ok r2 := h
    injection h2 with h3
    subst h3
    exact hf
  | dict d =>
    have h2 : Except.ok r = Except.ok r2 := h
    injection h2 with h3
    subst h3
    exact hf
  | arr l =>
    have h2 : Except.ok r = Except.ok r2 := h
    injection h2 with h3
    subst h3
    exact hf

theorem mem_keysOf_processDevItems (items : List JValue) :
    ∀ (r r2 : Record), processDevItems items r = Except.ok r2 →
      ∀ f, f ∈ keysOf r → f ∈ keysOf r2 := by
  induction items with
  | nil =>
    intro r r2 h f hf
    rw [processDevItems] at h
    cases h
    exact hf
  | cons val rest ih =>
    intro r r2 h f hf
    rw [processDevItems] at h
    cases hstep : devItemStep r val with
    | error e => rw [hstep] at h; cases h
    | ok rmid =>
      rw [hstep] at h
      exact ih rmid r2 h f (mem_keysOf_devItemStep r val rmid hstep f hf)

theorem mem_keysOf_processDevComment (u : JValue) (r r2 : Record)
    (h : processDevComment u r = Except.ok r2) (f : String) (hf : f ∈ keysOf r) :
    f ∈ keysOf r2 := by
  cases u with
  | dict entries =>
    rw [processDevComment] at h
    exact mem_keysOf_processDevEntries entries r r2 h f hf
  | arr items =>
    rw [processDevComment] at h
    exact mem_keysOf_processDevItems items r r2 h f hf
  | atom s => rw [processDevComment] at h; cases h; exact hf
  | null =>
    have h2 : (Except.error () : Except Unit Record) = Except.ok r2 := h
    exact Except.noConfusion h2
  | num n =>
    have h2 : (Except.error () : Except Unit Record) = Except.ok r2 := h
    exact Except.noConfusion h2

theorem mem_keysOf_processCommentEntry (r : Record) (entry : String) (v : JValue)
    (r2 : Record) (h : processCommentEntry r entry v = Except.ok r2) (f : String)
    (hf : f ∈ keysOf r) : f ∈ keysOf r2 := by
  simp only [processCommentEntry] at h
  by_cases h1 : entry = "userComment"
  · rw [if_pos h1] at h
    cases huc : processUserComment v r with
    | error e => rw [huc] at h; cases h
    | ok r1 =>
      rw [huc] at h
      simp only at h
      have hf1 := mem_keysOf_processUserComment v r r1 huc f hf
      by_cases h2 : entry = "developerComment"
      · rw [if_pos h2] at h
        exact mem_keysOf_processDevComment v r1 r2 h f hf1
      · rw [if_neg h2] at h
        cases h
        exact hf1
  · rw [if_neg h1] at h
    simp only at h
    by_cases h2 : entry = "developerComment"
    · rw [if_pos h2] at h
      exact mem_keysOf_processDevComment v r r2 h f hf
    · rw [if_neg h2] at h
      cases h
      exact hf

theorem mem_keysOf_processCommentEntries (entries : List (String × JValue)) :
    ∀ (r r2 : Record), processCommentEntries entries r = Except.ok r2 →
      ∀ f, f ∈ keysOf r → f ∈ keysOf r2 := by
  induction entries with
  | nil =>
    intro r r2 h f hf
    rw [processCommentEntries] at h
    cases h
    exact hf
  | cons p rest ih =>
    intro r r2 h f hf
    obtain ⟨entry, v⟩ := p
    rw [processCommentEntries] at h
    cases hstep : processCommentEntry r entry v with
    | error e => rw [hstep] at h; cases h
    | ok rmid =>
      rw [hstep] at h
      exact ih rmid r2 h f (mem_keysOf_processCommentEntry r entry v rmid hstep f hf)

theorem mem_keysOf_commentItemStep (r : Record) (val : JValue) (r2 : Record)
    (h : commentItemStep r val = Except.ok r2) (f : String) (hf : f ∈ keysOf r) :
    f ∈ keysOf r2 := by
  cases val with
  | atom s =>
    simp only [commentItemStep] at h
    by_cases h1 : s = "userComment"
    · rw [if_pos h1] at h; cases h
    · rw [if_neg h1] at h
      by_cases h2 : s = "developerComment"
      · rw [if_pos h2] at h; cases h
      · rw [if_neg h2] at h; cases h; exact hf
  | null =>
    have h2 : Except.ok r = Except.ok r2 := h
    injection h2 with h3
    subst h3
    exact hf
  | num n =>
    have h2 : Except.ok r = Except.ok r2 := h
    injection h2 with h3
    subst h3
    exact hf
  | dict d =>
    have h2 : Except.ok r = Except.ok r2 := h
    injection h2 with h3
    subst h3
    exact hf
  | arr l =>
    have h2 : Except.ok r = Except.ok r2 := h
    injection h2 with h3
    subst h3
    exact hf

theorem mem_keysOf_processCommentItems (items : List JValue) :
    ∀ (r r2 : Record), processCommentItems items r = Except.ok r2 →
      ∀ f, f ∈ keysOf r → f ∈ keysOf r2 := by
  induction items with
  | nil =>
    intro r r2 h f hf
    rw [processCommentItems] at h
    cases h
    exact hf
  | cons val rest ih =>
    intro r r2 h f hf
    rw [processCommentItems] at h
    cases hstep : commentItemStep r val with
    | error e => rw [hstep] at h; cases h
    | ok rmid =>
      rw [hstep] at h
      exact ih rmid r2 h f (mem_keysOf_commentItemStep r val rmid hstep f hf)

/-- A user comment carrying only `text`. -/
def c4c1 : JValue := JValue.dict [("userComment", JValue.dict [("text", JValue.atom "great")])]

/-- A user comment carrying `text` and `starRating`. -/
def c4c2 : JValue :=
  JValue.dict
    [("userComment", JValue.dict [("text", JValue.atom "great"), ("starRating", JValue.num 5)])]

/-- C4, counterexample to the claim as stated: two successfully processed
comments yield records with different column sets — the record for a
comment whose user section holds only `text` has no `star_rating` field at
all (not a `None` entry), while adding a `starRating` key makes the field
appear. -/
theorem c4_counterexample :
    (extract_comments c4c1 (JValue.atom "i") (JValue.atom "a")).map
        (fun r => (keysOf r).contains "star_rating") = Except.ok false ∧
    (extract_comments c4c2 (JValue.atom "i") (JValue.atom "a")).map
        (fun r => (keysOf r).contains "star_rating") = Except.ok true := ⟨rfl, rfl⟩

/-- C4, amended: only the ten fields assigned unconditionally at the top of
`extract_comments` (`review_id`, `author_name`, `android_os_version`,
`app_version_code`, `app_version_name`, `device`, `reviewer_language`,
`dev_comment_last_modified_seconds`, `dev_comment_last_modified_nanos`,
`dev_comment_text`) are present in every record it returns; the remaining
fields (`user_comment`, its timestamps, `star_rating`, thumbs counts,
`original_text`, device metadata) appear only when a triggering key occurs
in the source comment, so the column set is not uniform. -/
theorem c4_base_fields_present (comment rid an : JValue) (r : Record)
    (h : extract_comments comment rid an = Except.ok r) :
    baseFields.all (fun f => (keysOf r).contains f) = true := by
  have hmem : ∀ f ∈ baseFields, f ∈ keysOf r := by
    intro f hf
    have hf0 : f ∈ keysOf (baseRecord rid an) := by rw [keysOf_baseRecord]; exact hf
    cases comment with
    | dict entries =>
      rw [extract_comments] at h
      exact mem_keysOf_processCommentEntries entries _ r h f hf0
    | arr items =>
      rw [extract_comments] at h
      exact mem_keysOf_processCommentItems items _ r h f hf0
    | atom s =>
      rw [extract_comments] at h
      cases h
      exact hf0
    | null =>
      have h2 : (Except.error () : Except Unit Record) = Except.ok r := h
      exact Except.noConfusion h2
    | num n =>
      have h2 : (Except.error () : Except Unit Record) = Except.ok r := h
      exact Except.noConfusion h2
  rw [List.all_eq_true]
  intro f hf
  exact List.elem_iff.mpr (hmem f hf)

/-- The record `extract_comments` produces for `c4c1`. -/
def c4rec1 : Record :=
  baseRecord (JValue.atom "i") (JValue.atom "a") ++ [("user_comment", JValue.atom "great")]

/-- Witness for C4 (amended): the record for `c4c1` contains all ten base
fields. -/
theorem c4_witness : baseFields.all (fun f => (keysOf c4rec1).contains f) = true :=
  c4_base_fields_present c4c1 (JValue.atom "i") (JValue.atom "a") c4rec1 rfl

/-! ## C7 / C9: `process_json` -/

/-- A Play Store payload holding one review with one user comment and one
developer comment, delivered as two entries of the `comments` list. -/
def c7input (id an ut dt : String) : JValue :=
  JValue.dict
    [("reviews", JValue.arr
      [JValue.dict
        [("reviewId", JValue.atom id),
         ("authorName", JValue.atom an),
         ("comments", JValue.arr
           [JValue.dict [("userComment", JValue.dict [("text", JValue.atom ut)])],
            JValue.dict [("developerComment", JValue.dict [("text", JValue.atom dt)])]])]])]

/-- A Play Store payload holding one review with one user comment and one
developer comment, delivered as a single entry of the `comments` list
carrying both sections (the shape of the platform schema, where a comments
entry is `{userComment?, developerComment?}`). -/
def c7combined (id an ut dt : String) : JValue :=
  JValue.dict
    [("reviews", JValue.arr
      [JValue.dict
        [("reviewId", JValue.atom id),
         ("authorName", JValue.atom an),
         ("comments", JValue.arr
           [JValue.dict
             [("userComment", JValue.dict [("text", JValue.atom ut)]),
              ("developerComment", JValue.dict [("text", JValue.atom dt)])]])]])]

/-- C7, counterexample to the claim as stated: a single review with one
user comment and one developer comment delivered as one `comments` entry
carrying both sections has two comment-bearing sections present, yet
`process_json` yields exactly one record — combining both sections'
fields — not one record per section. -/
theorem c7_counterexample :
    (process_json (c7combined "id0" "an0" "great" "thanks")).map List.length =
      Except.ok 1 ∧
    (process_json (c7combined "id0" "an0" "great" "thanks")).map
        (fun rs => rs.map (fun r => lookupStr r "user_comment")) =
      Except.ok [some (JValue.atom "great")] ∧
    (process_json (c7combined "id0" "an0" "great" "thanks")).map
        (fun rs => rs.map (fun r => lookupStr r "dev_comment_text")) =
      Except.ok [some (JValue.atom "thanks")] := ⟨rfl, rfl, rfl⟩

/-- C7, amended: for a single review with one user comment and one
developer comment, `process_json` yields exactly one flat record per entry
of the review's `comments` list, not one per comment-bearing section.
Delivered as two separate entries (each bearing one section), this gives
two records sharing the parent review's `review_id` and `author_name` and
differing in the comment-specific fields; delivered as one entry carrying
both sections, it gives a single combined record with the parent's
identifiers and both sections' fields. -/
theorem c7_one_record_per_comments_entry (id an ut dt : String) :
    (∃ r1 r2, process_json (c7input id an ut dt) = Except.ok [r1, r2] ∧
      lookupStr r1 "review_id" = some (JValue.atom id) ∧
      lookupStr r2 "review_id" = some (JValue.atom id) ∧
      lookupStr r1 "author_name" = some (JValue.atom an) ∧
      lookupStr r2 "author_name" = some (JValue.atom an) ∧
      lookupStr r1 "user_comment" = some (JValue.atom ut) ∧
      lookupStr r2 "user_comment" = none ∧
      lookupStr r1 "dev_comment_text" = some JValue.null ∧
      lookupStr r2 "dev_comment_text" = some (JValue.atom dt)) ∧
    (∃ r, process_json (c7combined id an ut dt) = Except.ok [r] ∧
      lookupStr r "review_id" = some (JValue.atom id) ∧
      lookupStr r "author_name" = some (JValue.atom an) ∧
      lookupStr r "user_comment" = some (JValue.atom ut) ∧
      lookupStr r "dev_comment_text" = some (JValue.atom dt)) :=
  ⟨⟨_, _, rfl, rfl, rfl, rfl, rfl, rfl, rfl, rfl, rfl⟩,
   ⟨_, rfl, rfl, rfl, rfl, rfl⟩⟩

/-- A comment entry used by the C9 scenarios. -/
def c9comment : JValue := JValue.dict [("userComment", JValue.dict [("text", JValue.atom "x")])]

/-- Two reviews: the first carries `reviewId` and `authorName`, the second
carries neither — only comments. -/
def c9inputA (id1 an1 : String) : JValue :=
  JValue.dict
    [("reviews", JValue.arr
      [JValue.dict
        [("reviewId", JValue.atom id1),
         ("authorName", JValue.atom an1),
         ("comments", JValue.arr [c9comment])],
       JValue.dict
        [("comments", JValue.arr [c9comment])]])]

/-- A single review that lacks `reviewId` but has comments. -/
def c9inputB : JValue :=
  JValue.dict
    [("reviews", JValue.arr [JValue.dict [("comments", JValue.arr [c9comment])]])]

/-- C9: `author_name` is reset to `None` for each review but `review_id`
is not — a review lacking `reviewId` inherits the most recent earlier
review's id (while its `author_name` is `None`), and when the very first
review lacks `reviewId`, `process_json` fails with an unbound-variable
error instead of producing a record with an absent id. -/
theorem c9_review_id_carryover (id1 an1 : String) :
    (∃ rA rB, process_json (c9inputA id1 an1) = Except.ok [rA, rB] ∧
      lookupStr rA "review_id" = some (JValue.atom id1) ∧
      lookupStr rA "author_name" = some (JValue.atom an1) ∧
      lookupStr rB "review_id" = some (JValue.atom id1) ∧
      lookupStr rB "author_name" = some JValue.null) ∧
    process_json c9inputB = Except.error () :=
  ⟨⟨_, _, rfl, rfl, rfl, rfl, rfl⟩, rfl⟩
